import Mathlib

/-!
Verification of the subtitle-alignment core of the ai-content-workflow
repository.

The embedding follows the two source files the claims point at:
* `src/processor/subtitle_aligner.py` — the External Segmentation Adapter
  (`_align_with_qwen`, `_simple_split`) and the re-alignment pass
  (`align_subtitles`);
* `src/media/subtitle_generator.py` — the Windowed Word Aligner
  (`_align_words_with_timing`), the Phrase Segmenter
  (`_generate_karaoke_subtitles` / `_generate_chunk_subtitles`) and the
  Fallback Cue Builder (`_fallback_generation`).

Times (Python floats) are modelled as rationals; Python strings are modelled
by Lean `String`, with the character-level operations written over `.data`
(lists of code points), matching Python's code-point semantics. Python code
that raises (index error on an empty list, division by zero) is embedded as
an `Option`-returning function whose `none` stands for the raised exception.
-/

namespace ACWorkflow

/-- A Whisper word token: the dicts built at subtitle_generator.py:128-132
(`word`, `start`, `end`).  The `end` field is called `stop` because `end`
is a Lean keyword. -/
structure Token where
  word : String
  start : ℚ
  stop : ℚ
deriving DecidableEq, Repr, Inhabited

/-- One aligned word as produced by `_align_words_with_timing`
(subtitle_generator.py:253-320): the dicts `{'corrected_word', 'start',
'end'}`.  `text` is the `corrected_word` field. -/
structure AlignedWord where
  text : String
  start : ℚ
  stop : ℚ
deriving DecidableEq, Repr, Inhabited

/-- One subtitle cue, as built by `_create_subtitle_item`
(subtitle_generator.py:322-342): index, start, end and display text. -/
structure SubtitleCue where
  index : Nat
  start : ℚ
  stop : ℚ
  text : String
deriving DecidableEq, Repr, Inhabited

/-! ## String helpers (Python `' '.join`, `str.split`, `str.strip`, `str.lower`) -/

/-- Python `' '.join(list)`: the elements joined with a single space between
consecutive elements (also around empty elements). -/
def joinSpace : List String → String
  | [] => ""
  | [s] => s
  | s :: t :: rest => s ++ " " ++ joinSpace (t :: rest)

/-- Helper for `splitWs`: walk the characters keeping the (reversed) current
word in `acc`; a space closes the current word, empty words are dropped.
This is Python `str.split()` restricted to the space character, which is the
only whitespace the joined texts of this development contain. -/
def splitWsAux : List Char → List Char → List (List Char)
  | [], acc => if acc.isEmpty then [] else [acc.reverse]
  | c :: cs, acc =>
    if c = ' ' then
      if acc.isEmpty then splitWsAux cs [] else acc.reverse :: splitWsAux cs []
    else
      splitWsAux cs (c :: acc)

/-- Python `str.split()` (split on whitespace, dropping empty fields),
restricted to the space character. -/
def splitWs (s : String) : List String :=
  (splitWsAux s.data []).map fun cs => ⟨cs⟩

/-- The characters of Python's `strip('.,!?:;')` at subtitle_generator.py:287. -/
def isStripChar (c : Char) : Bool :=
  c = '.' || c = ',' || c = '!' || c = '?' || c = ':' || c = ';'

/-- Python `str.strip('.,!?:;')`: remove those characters from both ends. -/
def stripEnds (cs : List Char) : List Char :=
  ((cs.dropWhile isStripChar).reverse.dropWhile isStripChar).reverse

/-- Python `str.lower()` on the code points (ASCII case mapping). -/
def lowerChars (s : String) : List Char :=
  s.data.map Char.toLower

/-! ## External Segmentation Adapter (subtitle_aligner.py) -/

/-- `words_per_segment = max(1, len(words) // num_segments)`
(subtitle_aligner.py:177). -/
def wordsPerSegment (words : List String) (n : Nat) : Nat :=
  max 1 (words.length / n)

/-- The word slices taken by `_simple_split` (subtitle_aligner.py:179-188):
segment `i` is `words[i*w : i*w+w]` and the last segment is `words[(n-1)*w:]`
(Python slices, clipped at the end of the list). -/
def simpleSplitChunks (words : List String) (n : Nat) : List (List String) :=
  (List.range n).map fun i =>
    if i = n - 1 then words.drop (i * wordsPerSegment words n)
    else (words.drop (i * wordsPerSegment words n)).take (wordsPerSegment words n)

/-- `_simple_split` (subtitle_aligner.py:173-190): each slice of words is
joined with single spaces. -/
def simpleSplit (words : List String) (n : Nat) : List String :=
  (simpleSplitChunks words n).map joinSpace

/-- Outcome of the remote call in `_align_with_qwen` as seen by its
validation code: either a JSON array of strings was located and parsed
(`ok segs`), or the request errored / timed out / returned a non-200
status / no parseable array was found (`failed`). -/
inductive QwenOutcome where
  | ok (segs : List String)
  | failed
deriving DecidableEq, Repr

/-- The validation and fallback logic of `_align_with_qwen`
(subtitle_aligner.py:117-171): a parsed array is accepted only when its
length is exactly `n`, every other outcome falls back to `_simple_split`. -/
def alignWithQwen (outcome : QwenOutcome) (words : List String) (n : Nat) :
    List String :=
  match outcome with
  | .ok segs => if segs.length = n then segs else simpleSplit words n
  | .failed => simpleSplit words n

/-! ## Windowed Word Aligner (subtitle_generator.py `_align_words_with_timing`) -/

/-- The inline similarity computation at subtitle_generator.py:286-295:
the Whisper word is lower-cased, the corrected word is lower-cased and
stripped of `.,!?:;` at both ends; an exact match of those two scores 1.0,
a shared 3-character prefix (either direction, Python `startswith` on the
first three characters) scores 0.7, anything else 0.0. -/
def similarity (whisperWord corrected : String) : ℚ :=
  let w := lowerChars whisperWord
  let c := stripEnds (lowerChars corrected)
  if w = c then 1
  else if (c.take 3).isPrefixOf w || (w.take 3).isPrefixOf c then 7 / 10
  else 0

/-- The window search at subtitle_generator.py:280-299: scan tokens
`[cursor, cursor+3)` (clipped at the end of the sequence) keeping the first
index whose score strictly exceeds the best so far; the running best starts
at `(0, cursor)` (`best_score = 0`, `best_match_idx = whisper_idx`). -/
def bestInWindow (tokens : List Token) (corrected : String) (cursor : Nat) :
    ℚ × Nat :=
  ((tokens.enum.drop cursor).take 3).foldl
    (fun best p =>
      if similarity p.2.word corrected > best.1 then
        (similarity p.2.word corrected, p.1)
      else best)
    (0, cursor)

/-- The per-word loop at subtitle_generator.py:279-317: word `i` either takes
the timing of the best window match (score > 0.5, cursor moves past the
match) or is timed by linear interpolation
(`start = firstStart + i·timePerWord`, cursor unchanged). -/
def alignLoop (tokens : List Token) (firstStart timePerWord : ℚ) :
    List String → Nat → Nat → List AlignedWord
  | [], _, _ => []
  | w :: rest, i, cursor =>
    let best := bestInWindow tokens w cursor
    if best.1 > 1 / 2 ∧ best.2 < tokens.length then
      { text := w, start := (tokens.getD best.2 default).start,
        stop := (tokens.getD best.2 default).stop } ::
        alignLoop tokens firstStart timePerWord rest (i + 1) (best.2 + 1)
    else
      { text := w, start := firstStart + (i : ℚ) * timePerWord,
        stop := firstStart + (i : ℚ) * timePerWord + timePerWord } ::
        alignLoop tokens firstStart timePerWord rest (i + 1) cursor

/-- `_align_words_with_timing` (subtitle_generator.py:253-320).  Equal
lengths zip directly (lines 258-267).  Otherwise
`total_duration = whisper_words[-1]['end'] - whisper_words[0]['start']` and
`time_per_word = total_duration / len(corrected_words)` (lines 274-275) feed
the per-word loop.  `none` models the exceptions this code raises: an
IndexError from `whisper_words[-1]` when the token list is empty, and a
ZeroDivisionError when the corrected word list is empty (with a non-empty
token list). -/
def alignWords (tokens : List Token) (canonical : List String) :
    Option (List AlignedWord) :=
  if tokens.length = canonical.length then
    some (List.zipWith
      (fun w t => { text := w, start := t.start, stop := t.stop }) canonical tokens)
  else
    match tokens with
    | [] => none
    | t0 :: rest =>
      if canonical.length = 0 then none
      else
        some (alignLoop (t0 :: rest) t0.start
          ((((t0 :: rest).getLast (by simp)).stop - t0.start) /
            (canonical.length : ℚ))
          canonical 0 0)

/-! ## Phrase Segmenter (subtitle_generator.py `_generate_karaoke_subtitles`
and `_generate_chunk_subtitles`, the grouping loops at lines 147-175 and
221-249) -/

/-- Python `word.endswith(('.', '!', '?', ':'))`
(subtitle_generator.py:166, 240). -/
def isBreakWord (s : String) : Bool :=
  match s.data.getLast? with
  | some c => c = '.' || c = '!' || c = '?' || c = ':'
  | none => false

/-- The inner accumulation loop (subtitle_generator.py:157-167): take up to
`k` words, stopping right after a word ending in `.`/`!`/`?`/`:` or at the
end of the word list. -/
def takeMore : Nat → List AlignedWord → List AlignedWord
  | 0, _ => []
  | _ + 1, [] => []
  | k + 1, w :: rest => w :: (if isBreakWord w.text then [] else takeMore k rest)

/-- The outer `while idx < len(aligned_pairs)` loop (subtitle_generator.py:
152-175) as phrase extraction: each round takes one phrase with `takeMore`
and advances by its length.  The loop always advances when `k ≥ 1`; `fuel`
(instantiated with the list length) bounds the recursion structurally. -/
def phrasesFuel (k : Nat) : Nat → List AlignedWord → List (List AlignedWord)
  | 0, _ => []
  | _ + 1, [] => []
  | fuel + 1, w :: rest =>
    if (takeMore k (w :: rest)).isEmpty then phrasesFuel k fuel (w :: rest)
    else
      takeMore k (w :: rest) ::
        phrasesFuel k fuel ((w :: rest).drop (takeMore k (w :: rest)).length)

/-- The phrases (word groups) the segmenter forms from an aligned word
sequence with maximum phrase length `k`. -/
def phrases (k : Nat) (pairs : List AlignedWord) : List (List AlignedWord) :=
  phrasesFuel k pairs.length pairs

/-- Cue construction at subtitle_generator.py:154-172: start is the first
accumulated word's start, end the last accumulated word's end, the text the
accumulated words joined by single spaces, and the index the running cue
counter (starting at 1). -/
def cueOfPhrase (idx : Nat) (phrase : List AlignedWord) : SubtitleCue :=
  { index := idx,
    start := (phrase.headD default).start,
    stop := (phrase.getLastD default).stop,
    text := joinSpace (phrase.map (·.text)) }

/-- The full segmentation pass: the phrase at position `i` becomes the cue
with index `i + 1`.  `k = 4` is the karaoke mode (`words_per_phrase = 4`,
line 148), `k = 9` the standard chunk mode (`words_per_chunk = 9`,
line 222). -/
def segmentPhrases (k : Nat) (pairs : List AlignedWord) : List SubtitleCue :=
  (phrases k pairs).enum.map fun p => cueOfPhrase (p.1 + 1) p.2

/-! ## Fallback Cue Builder (subtitle_generator.py `_fallback_generation`,
lines 364-379) -/

/-- `chunks = [' '.join(words[i:i+10]) for i in range(0, len(words), 10)]`
(line 367), kept as word lists: chunk `i` is `words[10i : 10i+10]` and there
are `ceil(len(words)/10)` of them. -/
def fallbackChunks (words : List String) : List (List String) :=
  (List.range ((words.length + 9) / 10)).map fun i => (words.drop (10 * i)).take 10

/-- `_fallback_generation`'s cue construction (lines 370-379):
`time_per_chunk = duration / len(chunks)` (or `duration` when there are no
chunks), cue `i` spanning `[i·tpc, (i+1)·tpc]` with index `i + 1`. -/
def fallbackCues (words : List String) (duration : ℚ) : List SubtitleCue :=
  (fallbackChunks words).enum.map fun p =>
    { index := p.1 + 1,
      start := (p.1 : ℚ) *
        (if (fallbackChunks words).isEmpty then duration
         else duration / ((fallbackChunks words).length : ℚ)),
      stop := ((p.1 : ℚ) + 1) *
        (if (fallbackChunks words).isEmpty then duration
         else duration / ((fallbackChunks words).length : ℚ)),
      text := joinSpace p.2 }

/-! ## Re-alignment pass (subtitle_aligner.py `align_subtitles`) -/

/-- The replacement loop at subtitle_aligner.py:62-65: subtitle `i` gets the
text of segment `i` when one exists, and is otherwise left alone; timings
and the subtitle count are untouched. -/
def alignSubtitlesTexts (subs : List SubtitleCue) (segs : List String) :
    List SubtitleCue :=
  subs.enum.map fun p =>
    if h : p.1 < segs.length then { p.2 with text := segs.get ⟨p.1, h⟩ } else p.2

/-- `align_subtitles` (subtitle_aligner.py:29-71) after loading the file:
the adapter is asked for exactly `len(subs)` segments and the resulting
texts are written over the subtitles. -/
def alignSubtitles (outcome : QwenOutcome) (scriptWords : List String)
    (subs : List SubtitleCue) : List SubtitleCue :=
  alignSubtitlesTexts subs (alignWithQwen outcome scriptWords subs.length)

/-! ## Split/join round-trip lemmas -/

theorem splitWsAux_append_space (xs ys acc : List Char) :
    splitWsAux (xs ++ ' ' :: ys) acc = splitWsAux xs acc ++ splitWsAux ys [] := by
  induction xs generalizing acc with
  | nil =>
    by_cases h : acc.isEmpty <;> simp [splitWsAux, h]
  | cons c cs ih =>
    by_cases hc : c = ' '
    · by_cases h : acc.isEmpty <;> simp [splitWsAux, hc, h, ih]
    · simp [splitWsAux, hc, ih]

theorem splitWsAux_no_space (w acc : List Char) (hw : ∀ c ∈ w, c ≠ ' ') :
    splitWsAux w acc =
      if (acc.reverse ++ w).isEmpty then [] else [acc.reverse ++ w] := by
  induction w generalizing acc with
  | nil =>
    by_cases h : acc.isEmpty <;>
      simp_all [splitWsAux, List.isEmpty_iff]
  | cons c cs ih =>
    have hc : c ≠ ' ' := hw c (by simp)
    have : splitWsAux (c :: cs) acc = splitWsAux cs (c :: acc) := by
      simp [splitWsAux, hc]
    rw [this, ih (c :: acc) (fun d hd => hw d (by simp [hd]))]
    simp

theorem splitWs_joinSpace (ss : List String) :
    splitWs (joinSpace ss) = (ss.map splitWs).flatten := by
  induction ss with
  | nil => rfl
  | cons s rest ih =>
    cases rest with
    | nil => simp [joinSpace, splitWs]
    | cons t r =>
      have hdata : (joinSpace (s :: t :: r)).data =
          s.data ++ ' ' :: (joinSpace (t :: r)).data := by
        show (s ++ " " ++ joinSpace (t :: r)).data = _
        simp [String.data_append]
      have key : splitWs (joinSpace (s :: t :: r)) =
          splitWs s ++ splitWs (joinSpace (t :: r)) := by
        unfold splitWs
        rw [hdata, splitWsAux_append_space, List.map_append]
      rw [key, ih]
      simp

theorem splitWs_single (w : String) (h1 : w ≠ "")
    (h2 : ∀ c ∈ w.data, c ≠ ' ') : splitWs w = [w] := by
  have hd : w.data ≠ [] := by
    intro h
    exact h1 (by cases w; simp_all)
  unfold splitWs
  rw [splitWsAux_no_space w.data [] h2]
  simp [List.isEmpty_iff, hd]

theorem splitWs_joinSpace_words (ws : List String)
    (h : ∀ w ∈ ws, w ≠ "" ∧ ∀ c ∈ w.data, c ≠ ' ') :
    splitWs (joinSpace ws) = ws := by
  rw [splitWs_joinSpace]
  induction ws with
  | nil => rfl
  | cons w rest ih =>
    simp only [List.map_cons, List.flatten_cons]
    rw [splitWs_single w (h w (by simp)).1 (h w (by simp)).2,
      ih (fun v hv => h v (by simp [hv]))]
    rfl

/-! ## Flattening the chunk slices -/

theorem flatten_range_take {α : Type} (l : List α) (w m : Nat) :
    ((List.range m).map fun i => (l.drop (i * w)).take w).flatten = l.take (m * w) := by
  induction m with
  | zero => simp
  | succ m ih =>
    rw [List.range_succ, List.map_append, List.flatten_append, ih]
    simp only [List.map_cons, List.map_nil, List.flatten_cons, List.flatten_nil,
      List.append_nil]
    rw [Nat.succ_mul, List.take_add]

theorem simpleSplitChunks_flatten (words : List String) (n : Nat) (hn : 1 ≤ n) :
    (simpleSplitChunks words n).flatten = words := by
  obtain ⟨m, rfl⟩ : ∃ m, n = m + 1 := ⟨n - 1, by omega⟩
  unfold simpleSplitChunks
  rw [List.range_succ, List.map_append]
  have hmid : (List.range m).map
      (fun i => if i = m + 1 - 1 then words.drop (i * wordsPerSegment words (m + 1))
        else (words.drop (i * wordsPerSegment words (m + 1))).take
          (wordsPerSegment words (m + 1))) =
      (List.range m).map
      (fun i => (words.drop (i * wordsPerSegment words (m + 1))).take
          (wordsPerSegment words (m + 1))) := by
    apply List.map_congr_left
    intro i hi
    have hne : i ≠ m + 1 - 1 := by
      have := List.mem_range.mp hi
      omega
    rw [if_neg hne]
  rw [hmid, List.flatten_append, flatten_range_take]
  simp [List.take_append_drop]

theorem simpleSplit_length (words : List String) (n : Nat) :
    (simpleSplit words n).length = n := by
  simp [simpleSplit, simpleSplitChunks]

theorem simpleSplit_reconstructs (words : List String) (n : Nat) (hn : 1 ≤ n)
    (hw : ∀ w ∈ words, w ≠ "" ∧ ∀ ch ∈ w.data, ch ≠ ' ') :
    splitWs (joinSpace (simpleSplit words n)) = words := by
  unfold simpleSplit
  rw [splitWs_joinSpace, List.map_map]
  have hchunk : ∀ c ∈ simpleSplitChunks words n,
      splitWs (joinSpace c) = c := by
    intro c hc
    apply splitWs_joinSpace_words
    intro w hwc
    apply hw
    rw [← simpleSplitChunks_flatten words n hn]
    exact List.mem_flatten.mpr ⟨c, hc, hwc⟩
  calc ((simpleSplitChunks words n).map (splitWs ∘ joinSpace)).flatten
      = ((simpleSplitChunks words n).map id).flatten := by
        congr 1
        exact List.map_congr_left fun c hc => hchunk c hc
    _ = words := by rw [List.map_id]; exact simpleSplitChunks_flatten words n hn

/-- C1: for every canonical word list and every requested count `n ≥ 1` the
External Segmentation Adapter returns exactly `n` strings; a parsed response
of the wrong length and a failed request both fall back to `_simple_split`;
and the fallback's chunks, concatenated with spaces and re-split on
whitespace, reproduce the canonical word sequence with no word lost or
duplicated. -/
theorem c1_adapter_exact_count_and_fallback (outcome : QwenOutcome)
    (words : List String) (n : Nat) (hn : 1 ≤ n)
    (hw : ∀ w ∈ words, w ≠ "" ∧ ∀ ch ∈ w.data, ch ≠ ' ') :
    (alignWithQwen outcome words n).length = n ∧
    (∀ segs, outcome = .ok segs → segs.length ≠ n →
      alignWithQwen outcome words n = simpleSplit words n) ∧
    (outcome = .failed → alignWithQwen outcome words n = simpleSplit words n) ∧
    splitWs (joinSpace (simpleSplit words n)) = words := by
  refine ⟨?_, ?_, ?_, simpleSplit_reconstructs words n hn hw⟩
  · cases outcome with
    | ok segs =>
      by_cases h : segs.length = n
      · simp [alignWithQwen, h]
      · simp [alignWithQwen, h, simpleSplit_length]
    | failed => simp [alignWithQwen, simpleSplit_length]
  · intro segs hok hne
    subst hok
    simp [alignWithQwen, hne]
  · intro hfail
    subst hfail
    rfl

theorem c1_witness :
    (alignWithQwen (.ok ["way","too","short"]) ["a","b","c","d","e"] 5).length = 5 :=
  (c1_adapter_exact_count_and_fallback (.ok ["way","too","short"])
    ["a","b","c","d","e"] 5 (by norm_num) (by decide)).1

/-- C2 counterexample: on an empty token sequence and the non-empty
canonical sequence `["a"]` the Windowed Word Aligner raises
(`whisper_words[-1]` on an empty list), embedded as `none` — it does not
return one interpolated word per canonical word. -/
theorem c2_counterexample : alignWords [] ["a"] = none := rfl

/-- C2 (amended): with an empty token sequence and a non-empty canonical
sequence, `_align_words_with_timing` raises an IndexError
(`whisper_words[-1]`) instead of producing interpolated words; its callers
guard by checking for an empty token list before invoking it. -/
theorem c2_amended_empty_tokens_raise (canonical : List String)
    (h : canonical ≠ []) : alignWords [] canonical = none := by
  unfold alignWords
  rw [if_neg]
  simp only [List.length_nil]
  intro hlen
  exact h (List.length_eq_zero.mp hlen.symm)

theorem c2_witness : alignWords [] ["a"] = none :=
  c2_amended_empty_tokens_raise ["a"] (by decide)

/-- C4: when the token count equals the canonical word count the aligner
zips directly: word `i` carries canonical text `i` with token `i`'s timing. -/
theorem c4_equal_lengths_zip (tokens : List Token) (canonical : List String)
    (h : tokens.length = canonical.length) :
    ∃ out, alignWords tokens canonical = some out ∧
      out.length = canonical.length ∧
      ∀ i, i < canonical.length →
        (out.getD i default).text = canonical.getD i "" ∧
        (out.getD i default).start = (tokens.getD i default).start ∧
        (out.getD i default).stop = (tokens.getD i default).stop := by
  refine ⟨List.zipWith
    (fun w t => { text := w, start := t.start, stop := t.stop }) canonical tokens,
    ?_, ?_, ?_⟩
  · unfold alignWords
    rw [if_pos h]
  · rw [List.length_zipWith]
    omega
  · intro i hi
    have hz : i < (List.zipWith
        (fun (w : String) (t : Token) =>
          ({ text := w, start := t.start, stop := t.stop } : AlignedWord))
        canonical tokens).length := by
      rw [List.length_zipWith]; omega
    have ht : i < tokens.length := by omega
    rw [List.getD_eq_getElem _ _ hz, List.getD_eq_getElem _ _ hi,
      List.getD_eq_getElem _ _ ht, List.getElem_zipWith]
    exact ⟨rfl, rfl, rfl⟩

theorem c4_witness :
    ∃ out, alignWords
        [⟨"xin", 0, 3/10⟩, ⟨"chao", 3/10, 6/10⟩, ⟨"moi", 6/10, 9/10⟩,
          ⟨"nguoi", 9/10, 13/10⟩]
        ["Xin", "chào", "mọi", "người."] = some out ∧
      out.length = (["Xin", "chào", "mọi", "người."] : List String).length ∧
      ∀ i, i < (["Xin", "chào", "mọi", "người."] : List String).length →
        (out.getD i default).text =
          (["Xin", "chào", "mọi", "người."] : List String).getD i "" ∧
        (out.getD i default).start =
          (([⟨"xin", 0, 3/10⟩, ⟨"chao", 3/10, 6/10⟩, ⟨"moi", 6/10, 9/10⟩,
            ⟨"nguoi", 9/10, 13/10⟩] : List Token).getD i default).start ∧
        (out.getD i default).stop =
          (([⟨"xin", 0, 3/10⟩, ⟨"chao", 3/10, 6/10⟩, ⟨"moi", 6/10, 9/10⟩,
            ⟨"nguoi", 9/10, 13/10⟩] : List Token).getD i default).stop :=
  c4_equal_lengths_zip _ _ (by decide)

theorem alignLoop_length (tokens : List Token) (fs tpw : ℚ) :
    ∀ (canon : List String) (i cursor : Nat),
      (alignLoop tokens fs tpw canon i cursor).length = canon.length := by
  intro canon
  induction canon with
  | nil => intro i cursor; rfl
  | cons w rest ih =>
    intro i cursor
    simp only [alignLoop]
    split <;> simp [ih]

/-- Tokens and canonical words for the C6 counterexample: an interpolated
word reaching time 1/15 is followed by a matched word whose token starts at
time 0 again. -/
def c6Tokens : List Token := [⟨"a", 0, 1/10⟩, ⟨"b", 1/10, 2/10⟩]

def c6Canonical : List String := ["x", "y", "a"]

def c6Out : List AlignedWord :=
  [⟨"x", 0, 1/15⟩, ⟨"y", 1/15, 2/15⟩, ⟨"a", 0, 1/10⟩]

/-- C6 counterexample: on `c6Tokens`/`c6Canonical` the aligner's output has
word 2 starting at 1/15 and word 3 starting at 0 — the start times are not
non-decreasing across the sequence. -/
theorem c6_counterexample :
    alignWords c6Tokens c6Canonical = some c6Out ∧
    ¬((c6Out.getD 1 default).start ≤ (c6Out.getD 2 default).start) := by
  constructor
  · norm_num +decide [c6Tokens, c6Canonical, c6Out, alignWords, alignLoop,
      bestInWindow, similarity, lowerChars, stripEnds, isStripChar, List.enum,
      List.enumFrom]
  · norm_num [c6Out]

/-- C6 (amended): whenever the aligner completes, its output length equals
the canonical word count.  The claim's non-decreasing start/end clause does
not hold in general (see the counterexample): interleaving matched and
interpolated words can move times backwards. -/
theorem c6_amended_output_length (tokens : List Token) (canonical : List String)
    (out : List AlignedWord) (h : alignWords tokens canonical = some out) :
    out.length = canonical.length := by
  unfold alignWords at h
  split at h
  case isTrue hlen =>
    obtain rfl := (Option.some.inj h).symm
    rw [List.length_zipWith]
    omega
  case isFalse hlen =>
    cases tokens with
    | nil => exact absurd h (by simp)
    | cons t0 rest =>
      dsimp only at h
      by_cases hc : canonical.length = 0
      · rw [if_pos hc] at h
        exact absurd h (by simp)
      · rw [if_neg hc] at h
        obtain rfl := (Option.some.inj h).symm
        exact alignLoop_length ..

theorem c6_witness : ([⟨"w", 0, 1⟩] : List AlignedWord).length =
    (["w"] : List String).length :=
  c6_amended_output_length [⟨"a", 0, 1⟩] ["w"] [⟨"w", 0, 1⟩]
    (by norm_num [alignWords])

theorem foldl_best_fst_le (w : String) (q : ℚ) (L : List (Nat × Token))
    (hL : ∀ p ∈ L, similarity p.2.word w ≤ q) :
    ∀ init : ℚ × Nat, init.1 ≤ q →
      (L.foldl (fun best p =>
        if similarity p.2.word w > best.1 then (similarity p.2.word w, p.1)
        else best) init).1 ≤ q := by
  induction L with
  | nil => intro init h; exact h
  | cons p L ih =>
    intro init hinit
    simp only [List.foldl_cons]
    by_cases hp : similarity p.2.word w > init.1
    · rw [if_pos hp]
      exact ih (fun s hs => hL s (by simp [hs])) _ (hL p (by simp))
    · rw [if_neg hp]
      exact ih (fun s hs => hL s (by simp [hs])) init hinit

theorem bestInWindow_fst_le (tokens : List Token) (w : String) (cursor : Nat)
    (q : ℚ) (hq : 0 ≤ q) (hall : ∀ t ∈ tokens, similarity t.word w ≤ q) :
    (bestInWindow tokens w cursor).1 ≤ q := by
  unfold bestInWindow
  apply foldl_best_fst_le w q _ _ (0, cursor) hq
  intro p hp
  have hpe : p ∈ tokens.enum :=
    List.mem_of_mem_drop (List.mem_of_mem_take hp)
  have hsnd := List.mem_map_of_mem Prod.snd hpe
  rw [List.enum_map_snd] at hsnd
  exact hall p.2 hsnd

theorem alignLoop_interpolates (tokens : List Token) (fs tpw : ℚ) (w : String)
    (rest : List String) (i cursor : Nat)
    (hno : (bestInWindow tokens w cursor).1 ≤ 1 / 2) :
    alignLoop tokens fs tpw (w :: rest) i cursor =
      { text := w, start := fs + (i : ℚ) * tpw,
        stop := fs + (i : ℚ) * tpw + tpw } ::
        alignLoop tokens fs tpw rest (i + 1) cursor := by
  simp only [alignLoop]
  rw [if_neg]
  rintro ⟨h1, -⟩
  exact absurd h1 (not_lt.mpr hno)

theorem alignLoop_all_interpolated (tokens : List Token) (fs tpw : ℚ)
    (canon : List String)
    (hall : ∀ w ∈ canon, ∀ t ∈ tokens, similarity t.word w ≤ 1 / 2) :
    ∀ i cursor, alignLoop tokens fs tpw canon i cursor =
      (List.enumFrom i canon).map fun p =>
        { text := p.2, start := fs + (p.1 : ℚ) * tpw,
          stop := fs + (p.1 : ℚ) * tpw + tpw } := by
  induction canon with
  | nil => intro i cursor; rfl
  | cons w rest ih =>
    intro i cursor
    rw [alignLoop_interpolates tokens fs tpw w rest i cursor
      (bestInWindow_fst_le tokens w cursor (1 / 2) (by norm_num)
        (hall w (by simp)))]
    rw [ih (fun v hv t ht => hall v (by simp [hv]) t ht) (i + 1) cursor]
    simp [List.enumFrom]

/-- Tokens for the C5 counterexample: four tokens spanning 0.0 to 2.0
seconds. -/
def c5Tokens : List Token :=
  [⟨"a", 0, 1/2⟩, ⟨"b", 1/2, 1⟩, ⟨"c", 1, 3/2⟩, ⟨"d", 3/2, 2⟩]

/-- Six canonical words, none of which matches any token. -/
def c5Canonical : List String := ["p", "q", "r", "s", "t", "u"]

/-- The aligner's actual output on `c5Tokens`/`c5Canonical`: every word is
interpolated with `time_per_word = 2/6 = 1/3`. -/
def c5Out : List AlignedWord :=
  [⟨"p", 0, 1/3⟩, ⟨"q", 1/3, 2/3⟩, ⟨"r", 2/3, 1⟩,
   ⟨"s", 1, 4/3⟩, ⟨"t", 4/3, 5/3⟩, ⟨"u", 5/3, 2⟩]

/-- C5 counterexample: for 6 canonical words over 4 tokens spanning
0.0–2.0 s, words 5 and 6 are interpolated to [4/3, 5/3] and [5/3, 2]: their
times never go past 2.0 s (word 6 ends at exactly 2.0), contradicting the
claim's "timing words 5–6 past 2.0 s". -/
theorem c5_counterexample :
    alignWords c5Tokens c5Canonical = some c5Out ∧
    ¬(2 < (c5Out.getD 4 default).stop) ∧ ¬(2 < (c5Out.getD 5 default).stop) := by
  refine ⟨?_, by norm_num [c5Out], by norm_num [c5Out]⟩
  norm_num +decide [c5Tokens, c5Canonical, c5Out, alignWords, alignLoop,
    bestInWindow, similarity, lowerChars, stripEnds, isStripChar, List.enum,
    List.enumFrom]

/-- C5 (amended): in the unequal-length path, a canonical word whose
lookahead window holds no token scoring above 0.5 is emitted with
`start = first_token.start + i·time_per_word`,
`end = start + time_per_word`, and the cursor does not advance; with
`time_per_word = (last_token.end − first_token.start) / canonical_count`.
For 6 canonical words over 4 tokens spanning 0.0–2.0 s this completes
without raising, with `time_per_word = 1/3`, but words 5–6 stay within the
span: word 6 ends at exactly 2.0 s, not past it (see the counterexample). -/
theorem c5_amended_no_match_interpolates :
    (∀ (tokens : List Token) (fs tpw : ℚ) (w : String) (rest : List String)
      (i cursor : Nat), (bestInWindow tokens w cursor).1 ≤ 1 / 2 →
      alignLoop tokens fs tpw (w :: rest) i cursor =
        { text := w, start := fs + (i : ℚ) * tpw,
          stop := fs + (i : ℚ) * tpw + tpw } ::
          alignLoop tokens fs tpw rest (i + 1) cursor) ∧
    (∀ (t0 : Token) (rest : List Token) (canonical : List String),
      (t0 :: rest : List Token).length ≠ canonical.length → canonical ≠ [] →
      (∀ w ∈ canonical, ∀ t ∈ (t0 :: rest : List Token),
        similarity t.word w ≤ 1 / 2) →
      alignWords (t0 :: rest) canonical =
        some (canonical.enum.map fun p =>
          { text := p.2,
            start := t0.start + (p.1 : ℚ) *
              ((((t0 :: rest : List Token).getLast (by simp)).stop - t0.start) /
                (canonical.length : ℚ)),
            stop := t0.start + (p.1 : ℚ) *
              ((((t0 :: rest : List Token).getLast (by simp)).stop - t0.start) /
                (canonical.length : ℚ)) +
              ((((t0 :: rest : List Token).getLast (by simp)).stop - t0.start) /
                (canonical.length : ℚ)) })) := by
  refine ⟨fun tokens fs tpw w rest i cursor hno =>
    alignLoop_interpolates tokens fs tpw w rest i cursor hno, ?_⟩
  intro t0 rest canonical hlen hne hall
  unfold alignWords
  rw [if_neg hlen]
  dsimp only
  rw [if_neg (fun h => hne (List.length_eq_zero.mp h))]
  rw [alignLoop_all_interpolated (t0 :: rest) t0.start _ canonical hall 0 0]
  rfl

/-! ## Phrase Segmenter lemmas -/

theorem append_drop_of_prefix {α : Type} (t l : List α) (h : t <+: l) :
    t ++ l.drop t.length = l := by
  obtain ⟨r, rfl⟩ := h
  rw [List.drop_left]

theorem takeMore_ne_nil (k : Nat) (hk : 1 ≤ k) (w : AlignedWord)
    (rest : List AlignedWord) : takeMore k (w :: rest) ≠ [] := by
  obtain ⟨k', rfl⟩ : ∃ k', k = k' + 1 := ⟨k - 1, by omega⟩
  simp [takeMore]

theorem takeMore_isPrefixOf_self (k : Nat) (pairs : List AlignedWord) :
    takeMore k pairs <+: pairs := by
  induction pairs generalizing k with
  | nil => cases k <;> simp [takeMore]
  | cons w rest ih =>
    cases k with
    | zero => simp [takeMore]
    | succ k' =>
      simp only [takeMore]
      by_cases hb : isBreakWord w.text = true
      · rw [if_pos hb]
        exact ⟨rest, rfl⟩
      · rw [if_neg hb]
        exact List.cons_prefix_cons.mpr ⟨rfl, ih k'⟩

theorem takeMore_length_le (k : Nat) (pairs : List AlignedWord) :
    (takeMore k pairs).length ≤ k := by
  induction pairs generalizing k with
  | nil => cases k <;> simp [takeMore]
  | cons w rest ih =>
    cases k with
    | zero => simp [takeMore]
    | succ k' =>
      simp only [takeMore]
      by_cases hb : isBreakWord w.text = true
      · rw [if_pos hb]; simp
      · rw [if_neg hb]
        simpa using ih k'

theorem takeMore_interior (k : Nat) (pairs : List AlignedWord) :
    ∀ x ∈ (takeMore k pairs).dropLast, isBreakWord x.text = false := by
  induction pairs generalizing k with
  | nil => cases k <;> simp [takeMore]
  | cons w rest ih =>
    cases k with
    | zero => simp [takeMore]
    | succ k' =>
      simp only [takeMore]
      by_cases hb : isBreakWord w.text = true
      · rw [if_pos hb]; simp
      · rw [if_neg hb]
        cases htm : takeMore k' rest with
        | nil => simp
        | cons y t =>
          intro x hx
          rw [List.dropLast_cons₂] at hx
          rcases List.mem_cons.mp hx with rfl | hx'
          · exact Bool.not_eq_true _ ▸ (by simpa using hb)
          · exact ih k' x (htm ▸ hx')

theorem takeMore_short (k : Nat) (pairs : List AlignedWord)
    (h : (takeMore k pairs).length < k) :
    takeMore k pairs = pairs ∨
    isBreakWord ((takeMore k pairs).getLastD default).text = true := by
  induction pairs generalizing k with
  | nil => left; cases k <;> rfl
  | cons w rest ih =>
    cases k with
    | zero => omega
    | succ k' =>
      simp only [takeMore] at h ⊢
      by_cases hb : isBreakWord w.text = true
      · rw [if_pos hb] at h ⊢
        right
        simpa using hb
      · rw [if_neg hb] at h ⊢
        have h' : (takeMore k' rest).length < k' := by
          simp at h; omega
        cases htm : takeMore k' rest with
        | nil =>
          left
          have hk' : 1 ≤ k' := by rw [htm] at h'; simpa using h'
          have hrest : rest = [] := by
            cases rest with
            | nil => rfl
            | cons y t =>
              exact absurd htm (takeMore_ne_nil k' hk' y t)
          rw [hrest]
        | cons y t =>
          rcases ih k' h' with heq | hlast
          · left
            rw [← htm, heq]
          · right
            rw [htm] at hlast
            simpa [List.getLastD_cons] using hlast

theorem phrasesFuel_nil (k fuel : Nat) : phrasesFuel k fuel [] = [] := by
  cases fuel <;> rfl

theorem phrasesFuel_cons (k : Nat) (hk : 1 ≤ k) (fuel : Nat) (w : AlignedWord)
    (rest : List AlignedWord) :
    phrasesFuel k (fuel + 1) (w :: rest) =
      takeMore k (w :: rest) ::
        phrasesFuel k fuel ((w :: rest).drop (takeMore k (w :: rest)).length) := by
  simp only [phrasesFuel]
  rw [if_neg]
  simp [List.isEmpty_iff, takeMore_ne_nil k hk]

theorem phrasesFuel_flatten (k : Nat) (hk : 1 ≤ k) :
    ∀ (fuel : Nat) (pairs : List AlignedWord), pairs.length ≤ fuel →
      (phrasesFuel k fuel pairs).flatten = pairs := by
  intro fuel
  induction fuel with
  | zero =>
    intro pairs h
    have : pairs = [] := List.length_eq_zero.mp (by omega)
    rw [this, phrasesFuel_nil]
    rfl
  | succ fuel ih =>
    intro pairs h
    cases pairs with
    | nil => rw [phrasesFuel_nil]; rfl
    | cons w rest =>
      have hdrop : ((w :: rest).drop (takeMore k (w :: rest)).length).length ≤ fuel := by
        have h2 : 0 < (takeMore k (w :: rest)).length :=
          List.length_pos.mpr (takeMore_ne_nil k hk w rest)
        rw [List.length_drop]
        simp only [List.length_cons] at h ⊢
        omega
      rw [phrasesFuel_cons k hk, List.flatten_cons, ih _ hdrop,
        append_drop_of_prefix _ _ (takeMore_isPrefixOf_self k (w :: rest))]

theorem phrases_flatten (k : Nat) (hk : 1 ≤ k) (pairs : List AlignedWord) :
    (phrases k pairs).flatten = pairs :=
  phrasesFuel_flatten k hk pairs.length pairs le_rfl

theorem phrasesFuel_spec (k : Nat) (hk : 1 ≤ k) :
    ∀ (fuel : Nat) (pairs : List AlignedWord), pairs.length ≤ fuel →
    ∀ i, i < (phrasesFuel k fuel pairs).length →
      (phrasesFuel k fuel pairs).getD i [] ≠ [] ∧
      ((phrasesFuel k fuel pairs).getD i []).length ≤ k ∧
      (∀ x ∈ ((phrasesFuel k fuel pairs).getD i []).dropLast,
        isBreakWord x.text = false) ∧
      (((phrasesFuel k fuel pairs).getD i []).length < k →
        i + 1 = (phrasesFuel k fuel pairs).length ∨
        isBreakWord
          (((phrasesFuel k fuel pairs).getD i []).getLastD default).text = true) := by
  intro fuel
  induction fuel with
  | zero =>
    intro pairs h i hi
    have : pairs = [] := List.length_eq_zero.mp (by omega)
    rw [this, phrasesFuel_nil] at hi
    simp at hi
  | succ fuel ih =>
    intro pairs h i hi
    cases pairs with
    | nil =>
      rw [phrasesFuel_nil] at hi
      simp at hi
    | cons w rest =>
      have hdrop : ((w :: rest).drop (takeMore k (w :: rest)).length).length ≤ fuel := by
        have h2 : 0 < (takeMore k (w :: rest)).length :=
          List.length_pos.mpr (takeMore_ne_nil k hk w rest)
        rw [List.length_drop]
        simp only [List.length_cons] at h ⊢
        omega
      rw [phrasesFuel_cons k hk] at hi ⊢
      cases i with
      | zero =>
        simp only [List.getD_cons_zero]
        refine ⟨takeMore_ne_nil k hk w rest, takeMore_length_le k _,
          takeMore_interior k _, ?_⟩
        intro hshort
        rcases takeMore_short k (w :: rest) hshort with heq | hlast
        · left
          rw [heq, List.drop_length, phrasesFuel_nil]
          rfl
        · right
          exact hlast
      | succ i =>
        simp only [List.getD_cons_succ, List.length_cons] at hi ⊢
        have hrec := ih _ hdrop i (by omega)
        refine ⟨hrec.1, hrec.2.1, hrec.2.2.1, ?_⟩
        intro hshort
        rcases hrec.2.2.2 hshort with hlast | hbrk
        · left; omega
        · right; exact hbrk

theorem segmentPhrases_length (k : Nat) (pairs : List AlignedWord) :
    (segmentPhrases k pairs).length = (phrases k pairs).length := by
  simp [segmentPhrases, List.enum_length]

theorem segmentPhrases_getD (k : Nat) (pairs : List AlignedWord) (i : Nat)
    (hi : i < (phrases k pairs).length) :
    (segmentPhrases k pairs).getD i default =
      cueOfPhrase (i + 1) ((phrases k pairs).getD i []) := by
  unfold segmentPhrases
  rw [List.getD_eq_getElem _ _ (by simpa [List.enum_length] using hi),
    List.getElem_map, List.getElem_enum, List.getD_eq_getElem _ _ hi]

theorem segmentPhrases_text_map (k : Nat) (pairs : List AlignedWord) :
    (segmentPhrases k pairs).map (·.text) =
      (phrases k pairs).map fun ph => joinSpace (ph.map (·.text)) := by
  unfold segmentPhrases
  rw [List.map_map]
  calc (phrases k pairs).enum.map
        ((fun c => c.text) ∘ fun p => cueOfPhrase (p.1 + 1) p.2)
      = ((phrases k pairs).enum.map Prod.snd).map
          (fun ph => joinSpace (ph.map (·.text))) := by
        rw [List.map_map]
        rfl
    _ = (phrases k pairs).map fun ph => joinSpace (ph.map (·.text)) := by
        rw [List.enum_map_snd]

theorem segmentPhrases_index_map (k : Nat) (pairs : List AlignedWord) :
    (segmentPhrases k pairs).map (·.index) =
      List.range' 1 (segmentPhrases k pairs).length := by
  unfold segmentPhrases
  rw [List.map_map]
  calc (phrases k pairs).enum.map
        ((fun c => c.index) ∘ fun p => cueOfPhrase (p.1 + 1) p.2)
      = ((phrases k pairs).enum.map Prod.fst).map (fun n => n + 1) := by
        rw [List.map_map]
        rfl
    _ = (List.range (phrases k pairs).length).map (fun n => n + 1) := by
        rw [List.enum_map_fst]
    _ = List.range' 1 (phrases k pairs).length := by
        rw [List.range'_eq_map_range]
        exact List.map_congr_left fun n _ => Nat.add_comm n 1
    _ = List.range' 1 ((phrases k pairs).enum.map
          (fun p => cueOfPhrase (p.1 + 1) p.2)).length := by
        rw [List.length_map, List.enum_length]

/-- C3: the cue texts the Phrase Segmenter produces, joined and re-split on
whitespace, reproduce the aligned word text sequence exactly and in order,
and cue indexes are assigned sequentially starting at 1. -/
theorem c3_cue_texts_reconstruct (k : Nat) (pairs : List AlignedWord)
    (hk : 1 ≤ k)
    (hw : ∀ p ∈ pairs, p.text ≠ "" ∧ ∀ ch ∈ p.text.data, ch ≠ ' ') :
    splitWs (joinSpace ((segmentPhrases k pairs).map (·.text))) =
      pairs.map (·.text) ∧
    (segmentPhrases k pairs).map (·.index) =
      List.range' 1 (segmentPhrases k pairs).length := by
  refine ⟨?_, segmentPhrases_index_map k pairs⟩
  rw [segmentPhrases_text_map, splitWs_joinSpace, List.map_map]
  have hph : ∀ ph ∈ phrases k pairs,
      splitWs (joinSpace (ph.map (·.text))) = ph.map (·.text) := by
    intro ph hphm
    apply splitWs_joinSpace_words
    intro w hw'
    obtain ⟨a, ha, rfl⟩ := List.mem_map.mp hw'
    have hmem : a ∈ pairs := by
      rw [← phrases_flatten k hk pairs]
      exact List.mem_flatten.mpr ⟨ph, hphm, ha⟩
    exact hw a hmem
  calc ((phrases k pairs).map
        (splitWs ∘ fun ph => joinSpace (ph.map (·.text)))).flatten
      = ((phrases k pairs).map fun ph => ph.map (·.text)).flatten := by
        congr 1
        exact List.map_congr_left fun ph h => hph ph h
    _ = (phrases k pairs).flatten.map (·.text) := (List.map_flatten ..).symm
    _ = pairs.map (·.text) := by rw [phrases_flatten k hk]

/-- Aligned words for the C3/C7 witnesses: a sentence break after the second
word. -/
def c3Pairs : List AlignedWord :=
  [⟨"One", 0, 1⟩, ⟨"two.", 1, 2⟩, ⟨"three", 2, 3⟩, ⟨"four", 3, 4⟩,
   ⟨"five", 4, 5⟩, ⟨"six", 5, 6⟩]

theorem c3_witness :
    (segmentPhrases 4 c3Pairs).map (·.index) =
      List.range' 1 (segmentPhrases 4 c3Pairs).length :=
  (c3_cue_texts_reconstruct 4 c3Pairs (by norm_num) (by decide)).2

/-- C7: every phrase the segmenter accumulates is non-empty, holds at most
`k` words (`k = 4` in karaoke mode, `k = 9` in standard mode), never
continues past a word ending in `.`, `!`, `?` or `:` (no interior break
word), and a phrase shorter than `k` is either the final one or ends in a
break word; its cue takes the first word's start, the last word's end, the
words joined by single spaces, and index `i + 1`. -/
theorem c7_segmenter_cue_boundaries (k : Nat) (pairs : List AlignedWord)
    (hk : k = 4 ∨ k = 9) (i : Nat) (hi : i < (phrases k pairs).length) :
    (phrases k pairs).getD i [] ≠ [] ∧
    ((phrases k pairs).getD i []).length ≤ k ∧
    (∀ x ∈ ((phrases k pairs).getD i []).dropLast, isBreakWord x.text = false) ∧
    (((phrases k pairs).getD i []).length < k →
      i + 1 = (phrases k pairs).length ∨
      isBreakWord (((phrases k pairs).getD i []).getLastD default).text = true) ∧
    (segmentPhrases k pairs).getD i default =
      { index := i + 1,
        start := (((phrases k pairs).getD i []).headD default).start,
        stop := (((phrases k pairs).getD i []).getLastD default).stop,
        text := joinSpace (((phrases k pairs).getD i []).map (·.text)) } := by
  have hk1 : 1 ≤ k := by rcases hk with rfl | rfl <;> norm_num
  have hspec := phrasesFuel_spec k hk1 pairs.length pairs le_rfl i hi
  exact ⟨hspec.1, hspec.2.1, hspec.2.2.1, hspec.2.2.2,
    by rw [segmentPhrases_getD k pairs i hi]; rfl⟩

theorem c7_witness :
    (phrases 4 c3Pairs).getD 0 [] ≠ [] ∧
    ((phrases 4 c3Pairs).getD 0 []).length ≤ 4 :=
  ⟨(c7_segmenter_cue_boundaries 4 c3Pairs (Or.inl rfl) 0 (by decide)).1,
   (c7_segmenter_cue_boundaries 4 c3Pairs (Or.inl rfl) 0 (by decide)).2.1⟩

/-- C8 counterexample: the two words `"hello."` and `"hello."` are an exact
(case-insensitive) match, yet the scorer returns 0.7, not 1.0: punctuation
is stripped from the canonical side only, so the comparison is
`"hello." == "hello"`. -/
theorem c8_counterexample :
    similarity "hello." "hello." = 7 / 10 ∧ ¬((7 : ℚ) / 10 = 1) := by
  constructor
  · simp only [similarity]
    rw [if_neg (by decide), if_pos (by decide)]
  · norm_num

/-- C8 (amended): the scorer returns a score in {1.0, 0.7, 0.0}, decided in
priority order on the lower-cased ASR word and the lower-cased canonical
word with `.,!?:;` stripped from both ends of the canonical word only:
equality of those two scores 1.0; otherwise a first-3-character prefix
match in either direction scores 0.7; otherwise 0.0. -/
theorem c8_amended_score_rules (w c : String) :
    (similarity w c = 1 ∨ similarity w c = 7 / 10 ∨ similarity w c = 0) ∧
    (lowerChars w = stripEnds (lowerChars c) → similarity w c = 1) ∧
    (lowerChars w ≠ stripEnds (lowerChars c) →
      (((stripEnds (lowerChars c)).take 3).isPrefixOf (lowerChars w) = true ∨
        ((lowerChars w).take 3).isPrefixOf (stripEnds (lowerChars c)) = true) →
      similarity w c = 7 / 10) ∧
    (lowerChars w ≠ stripEnds (lowerChars c) →
      ¬(((stripEnds (lowerChars c)).take 3).isPrefixOf (lowerChars w) = true ∨
        ((lowerChars w).take 3).isPrefixOf (stripEnds (lowerChars c)) = true) →
      similarity w c = 0) := by
  simp only [similarity]
  by_cases h1 : lowerChars w = stripEnds (lowerChars c)
  · rw [if_pos h1]
    exact ⟨Or.inl rfl, fun _ => rfl, fun hn _ => absurd h1 hn,
      fun hn _ => absurd h1 hn⟩
  · rw [if_neg h1]
    by_cases h2 : (((stripEnds (lowerChars c)).take 3).isPrefixOf (lowerChars w) ||
        ((lowerChars w).take 3).isPrefixOf (stripEnds (lowerChars c))) = true
    · rw [if_pos h2]
      exact ⟨Or.inr (Or.inl rfl), fun h => absurd h h1, fun _ _ => rfl,
        fun _ hnpre => absurd ((Bool.or_eq_true _ _).mp h2) hnpre⟩
    · rw [if_neg h2]
      exact ⟨Or.inr (Or.inr rfl), fun h => absurd h h1,
        fun _ hpre => absurd ((Bool.or_eq_true _ _).mpr hpre) h2, fun _ _ => rfl⟩

theorem fallbackChunks_flatten (words : List String) :
    (fallbackChunks words).flatten = words := by
  unfold fallbackChunks
  have hcomm : ((List.range ((words.length + 9) / 10)).map
      fun i => (words.drop (10 * i)).take 10) =
      ((List.range ((words.length + 9) / 10)).map
      fun i => (words.drop (i * 10)).take 10) := by
    apply List.map_congr_left
    intro i _
    rw [Nat.mul_comm]
  rw [hcomm, flatten_range_take]
  apply List.take_of_length_le
  omega

/-- C9: the Fallback Cue Builder splits the script words into
`ceil(W/10)` fixed-size chunks whose concatenation is exactly the word
sequence, and cue `i` (1-based index `i+1`) spans the uniform slice
`[i·(D/chunk_count), (i+1)·(D/chunk_count)]` with the chunk's words joined
by single spaces — sequential and non-overlapping. -/
theorem c9_fallback_uniform_slices (words : List String) (duration : ℚ) :
    (fallbackCues words duration).length = (words.length + 9) / 10 ∧
    (fallbackChunks words).flatten = words ∧
    ∀ i, i < (fallbackChunks words).length →
      (fallbackCues words duration).getD i default =
        { index := i + 1,
          start := (i : ℚ) * (duration / ((fallbackChunks words).length : ℚ)),
          stop := ((i : ℚ) + 1) * (duration / ((fallbackChunks words).length : ℚ)),
          text := joinSpace ((words.drop (10 * i)).take 10) } := by
  refine ⟨?_, fallbackChunks_flatten words, ?_⟩
  · simp [fallbackCues, fallbackChunks, List.enum_length]
  · intro i hi
    have hne : ¬(fallbackChunks words).isEmpty = true := by
      rw [List.isEmpty_iff]
      intro h
      rw [h] at hi
      simp at hi
    have htext : (fallbackChunks words)[i] = (words.drop (10 * i)).take 10 := by
      unfold fallbackChunks
      rw [List.getElem_map, List.getElem_range]
    unfold fallbackCues
    rw [List.getD_eq_getElem _ _ (by simpa [List.enum_length] using hi),
      List.getElem_map, List.getElem_enum]
    dsimp only
    have hq : (if (fallbackChunks words).isEmpty = true then duration
        else duration / ((fallbackChunks words).length : ℚ)) =
        duration / ((fallbackChunks words).length : ℚ) := if_neg hne
    simp only [hq, htext]

/-- C10: the re-alignment pass keeps the subtitle count and every start/end
time and index unchanged; it overwrites exactly the texts of the first
`min(subtitle_count, segment_count)` subtitles with the adapter's segments
and leaves every other text alone. -/
theorem c10_realign_touches_only_texts (outcome : QwenOutcome)
    (scriptWords : List String) (subs : List SubtitleCue) :
    (alignSubtitles outcome scriptWords subs).length = subs.length ∧
    ∀ i, i < subs.length →
      ((alignSubtitles outcome scriptWords subs).getD i default).index =
        (subs.getD i default).index ∧
      ((alignSubtitles outcome scriptWords subs).getD i default).start =
        (subs.getD i default).start ∧
      ((alignSubtitles outcome scriptWords subs).getD i default).stop =
        (subs.getD i default).stop ∧
      (i < (alignWithQwen outcome scriptWords subs.length).length →
        ((alignSubtitles outcome scriptWords subs).getD i default).text =
          (alignWithQwen outcome scriptWords subs.length).getD i "") ∧
      ((alignWithQwen outcome scriptWords subs.length).length ≤ i →
        ((alignSubtitles outcome scriptWords subs).getD i default).text =
          (subs.getD i default).text) := by
  constructor
  · simp [alignSubtitles, alignSubtitlesTexts, List.enum_length]
  · intro i hi
    have hgd : (alignSubtitles outcome scriptWords subs).getD i default =
        (if h : i < (alignWithQwen outcome scriptWords subs.length).length then
          { subs.getD i default with
            text := (alignWithQwen outcome scriptWords subs.length).get ⟨i, h⟩ }
        else subs.getD i default) := by
      unfold alignSubtitles alignSubtitlesTexts
      rw [List.getD_eq_getElem _ _ (by simpa [List.enum_length] using hi),
        List.getElem_map, List.getElem_enum, List.getD_eq_getElem _ _ hi]
    rw [hgd]
    by_cases h2 : i < (alignWithQwen outcome scriptWords subs.length).length
    · rw [dif_pos h2]
      refine ⟨rfl, rfl, rfl, fun _ => ?_, fun hle => by omega⟩
      rw [List.getD_eq_getElem _ _ h2]
      rfl
    · rw [dif_neg h2]
      exact ⟨rfl, rfl, rfl, fun h => absurd h h2, fun _ => rfl⟩

end ACWorkflow
